import Mathlib

/-!
Verification of the star-organizer pipeline (src/stars.py).

The script keeps three JSON documents (starred-repo snapshot, category
catalog, repo-to-category assignment mapping), reconciles them, classifies
new repositories in batches through a language model, and republishes one
markdown listing per category plus a README index to a remote repository.

Python dictionaries are embedded as association lists that preserve
insertion order; dictionary update is modelled by `setKey` (replace in
place, append when the key is new), matching CPython semantics.  Machine
interaction (the GitHub file API) is embedded as an explicit remote state
(path-to-content association list) plus a trace of remote operations; a
`GithubException` raised by an API call is modelled by a `failed` flag that
stops the rest of the function, as the broad `except` in the source does.
-/

set_option autoImplicit false

universe u v

/-- One starred-repository record, as built in `download_starred_repos`
(src/stars.py lines 56-63).  All fields are strings. -/
structure Repo where
  Name : String
  URL : String
  Description : String
  Owner : String
  FullName : String
  README : String
deriving DecidableEq

/-- The persisted repo-to-category assignment mapping
(`repo_category_mapping.json`): repository full name to list of category
names, in insertion order. -/
abbrev Mapping := List (String × List String)

/-- The category catalog (`categories.json`): category name to description. -/
abbrev Catalog := List (String × String)

/-- Keys of an association list, in order. -/
def keysOf {α : Type u} (m : List (String × α)) : List String :=
  m.map (fun p => p.1)

/-- Python `k in d` membership test on a dictionary. -/
def hasKey {α : Type u} (m : List (String × α)) (k : String) : Bool :=
  m.any (fun p => p.1 = k)

/-- Python `d[k]` lookup (first binding wins; dictionaries never hold
duplicate keys, so this is exact). -/
def alistLookup {α : Type u} (m : List (String × α)) (k : String) : Option α :=
  match m with
  | [] => none
  | p :: ps => if p.1 = k then some p.2 else alistLookup ps k

/-- Python `d[k] = v`: replace the binding in place if the key exists,
append it otherwise. -/
def setKey {α : Type u} (m : List (String × α)) (k : String) (v : α) :
    List (String × α) :=
  if hasKey m k then m.map (fun p => if p.1 = k then (p.1, v) else p)
  else m ++ [(k, v)]

/-- Python `del d[k]`. -/
def eraseKey {α : Type u} (m : List (String × α)) (k : String) :
    List (String × α) :=
  m.filter (fun p => p.1 ≠ k)

section AlistLemmas

variable {α : Type u}

theorem hasKey_iff_mem_keysOf {m : List (String × α)} {k : String} :
    hasKey m k = true ↔ k ∈ keysOf m := by
  simp [hasKey, keysOf, List.any_eq_true, decide_eq_true_eq, List.mem_map]

theorem alistLookup_isSome_iff {m : List (String × α)} {k : String} :
    (alistLookup m k).isSome = true ↔ k ∈ keysOf m := by
  induction m with
  | nil => simp [alistLookup, keysOf]
  | cons p ps ih =>
    by_cases h : p.1 = k
    · simp [alistLookup, h, keysOf]
    · simp [alistLookup, h, keysOf] at ih ⊢
      rw [ih]
      constructor
      · intro hk
        exact Or.inr hk
      · rintro (hk | hk)
        · exact absurd hk.symm h
        · exact hk

theorem alistLookup_eq_none_of_not_mem {m : List (String × α)} {k : String}
    (h : k ∉ keysOf m) : alistLookup m k = none := by
  cases ho : alistLookup m k with
  | none => rfl
  | some v =>
    exact absurd (alistLookup_isSome_iff.mp (by simp [ho])) h

theorem mem_keysOf_of_lookup_eq_some {m : List (String × α)} {k : String}
    {v : α} (h : alistLookup m k = some v) : k ∈ keysOf m := by
  apply alistLookup_isSome_iff.mp
  simp [h]

end AlistLemmas

/-- Reconciliation (src/stars.py lines 223-228): drop from the assignment
mapping every repository that is no longer in the snapshot; return the list
of dropped identifiers together with the surviving mapping.  The Python
version deletes in place and returns `list(unstarred_repos)` built from a
set; here the removed identifiers are returned in mapping order, which
agrees with the set as far as membership is concerned. -/
def remove_unstarred_repos (starred : List (String × Repo)) (M : Mapping) :
    List String × Mapping :=
  let unstarred := (keysOf M).filter (fun k => !(hasKey starred k))
  (unstarred, M.filter (fun p => hasKey starred p.1))

/-- Claim C1: after `remove_unstarred_repos` runs on snapshot `S` and
assignment mapping `M`, every key of the resulting mapping is a key of `S`,
and the returned list holds exactly the keys that were in `M` but not in
`S`. -/
theorem reconcile_keys_subset_and_removed_exact
    (S : List (String × Repo)) (M : Mapping) :
    (∀ k ∈ keysOf (remove_unstarred_repos S M).2, k ∈ keysOf S) ∧
    (∀ k, k ∈ (remove_unstarred_repos S M).1 ↔
      (k ∈ keysOf M ∧ k ∉ keysOf S)) := by
  constructor
  · intro k hk
    simp only [remove_unstarred_repos, keysOf, List.mem_map] at hk
    obtain ⟨p, hp, rfl⟩ := hk
    rw [List.mem_filter] at hp
    exact hasKey_iff_mem_keysOf.mp hp.2
  · intro k
    simp only [remove_unstarred_repos]
    rw [List.mem_filter]
    constructor
    · intro hk
      refine ⟨hk.1, fun hks => ?_⟩
      have h2 := hk.2
      rw [Bool.not_eq_true'] at h2
      rw [hasKey_iff_mem_keysOf.mpr hks] at h2
      exact Bool.true_eq_false.mp h2
    · intro hk
      refine ⟨hk.1, ?_⟩
      rw [Bool.not_eq_true']
      cases h : hasKey S k
      · rfl
      · exact absurd (hasKey_iff_mem_keysOf.mp h) hk.2

/-- Witness for C1 on a concrete snapshot and mapping: repository `b` is
reported removed, and the surviving key `a` is a snapshot key. -/
theorem reconcile_keys_subset_and_removed_exact_witness :
    "b" ∈ (remove_unstarred_repos
        [("a", { Name := "a", URL := "", Description := "", Owner := "",
                 FullName := "a", README := "" })]
        [("a", ["X"]), ("b", ["Y"])]).1 := by
  exact ((reconcile_keys_subset_and_removed_exact _ _).2 "b").mpr (by decide)

section SetKeyLemmas

variable {α : Type u}

theorem alistLookup_append_left {m l : List (String × α)} {k : String} {v : α}
    (h : alistLookup m k = some v) : alistLookup (m ++ l) k = some v := by
  induction m with
  | nil => simp [alistLookup] at h
  | cons p ps ih =>
    by_cases hp : p.1 = k
    · simpa [alistLookup, hp] using h
    · rw [alistLookup, if_neg hp] at h
      simpa [alistLookup, hp] using ih h

theorem alistLookup_append_right {m l : List (String × α)} {k : String}
    (h : k ∉ keysOf m) : alistLookup (m ++ l) k = alistLookup l k := by
  induction m with
  | nil => simp
  | cons p ps ih =>
    simp only [keysOf, List.map_cons, List.mem_cons] at h
    push_neg at h
    rw [List.cons_append, alistLookup, if_neg (fun hh : p.1 = k => h.1 hh.symm)]
    exact ih h.2

theorem alistLookup_map_replace_self {m : List (String × α)} {k : String}
    {v : α} (h : k ∈ keysOf m) :
    alistLookup (m.map (fun p => if p.1 = k then (p.1, v) else p)) k
      = some v := by
  induction m with
  | nil => simp [keysOf] at h
  | cons p ps ih =>
    by_cases hp : p.1 = k
    · simp [alistLookup, hp]
    · simp only [keysOf, List.map_cons, List.mem_cons] at h
      rcases h with h | h
      · exact absurd h.symm hp
      · simp only [List.map_cons, if_neg hp, alistLookup, if_neg hp]
        exact ih h

theorem alistLookup_setKey_self {m : List (String × α)} {k : String} {v : α} :
    alistLookup (setKey m k v) k = some v := by
  unfold setKey
  by_cases h : hasKey m k
  · rw [if_pos h]
    exact alistLookup_map_replace_self (hasKey_iff_mem_keysOf.mp h)
  · rw [if_neg h]
    have hk : k ∉ keysOf m := fun hm => h (hasKey_iff_mem_keysOf.mpr hm)
    rw [alistLookup_append_right hk]
    simp [alistLookup]

theorem alistLookup_map_replace_ne {m : List (String × α)} {k k' : String}
    {v : α} (h : k' ≠ k) :
    alistLookup (m.map (fun p => if p.1 = k then (p.1, v) else p)) k'
      = alistLookup m k' := by
  induction m with
  | nil => simp
  | cons p ps ih =>
    by_cases hp : p.1 = k
    · have hne : ¬ (p.1 = k') := by
        rw [hp]; exact fun hh => h hh.symm
      rw [List.map_cons, if_pos hp, alistLookup, alistLookup,
        if_neg hne, if_neg hne]
      exact ih
    · rw [List.map_cons, if_neg hp, alistLookup, alistLookup]
      by_cases hq : p.1 = k'
      · rw [if_pos hq, if_pos hq]
      · rw [if_neg hq, if_neg hq]
        exact ih

theorem alistLookup_setKey_ne {m : List (String × α)} {k k' : String} {v : α}
    (h : k' ≠ k) : alistLookup (setKey m k v) k' = alistLookup m k' := by
  unfold setKey
  by_cases hm : hasKey m k
  · rw [if_pos hm]
    exact alistLookup_map_replace_ne h
  · rw [if_neg hm]
    cases ho : alistLookup m k' with
    | some w => rw [alistLookup_append_left ho]
    | none =>
      have hnm : k' ∉ keysOf m := by
        intro hmem
        have hs := alistLookup_isSome_iff.mpr hmem
        rw [ho] at hs
        simp at hs
      rw [alistLookup_append_right hnm]
      simp [alistLookup, Ne.symm h]

end SetKeyLemmas

/-- Batch size of the classification loop (src/stars.py line 315). -/
def batchSize : Nat := 50

/-- The successive slices `repos_list[i:i+batch_size]` taken by
`for i in range(0, len(repos_list), batch_size)` (src/stars.py line 318). -/
def chunks {α : Type u} : List α → List (List α)
  | [] => []
  | x :: xs => (x :: xs).take batchSize :: chunks ((x :: xs).drop batchSize)
termination_by l => l.length
decreasing_by
  simp only [List.length_drop, List.length_cons, batchSize]
  omega

/-- The batch dictionary `{repo['FullName']: repo for repo in ...}`
(src/stars.py line 319), with CPython dict-comprehension semantics. -/
def batchOf (ch : List Repo) : List (String × Repo) :=
  (ch.map (fun r => (r.FullName, r))).foldl (fun acc p => setKey acc p.1 p.2) []

/-- The per-batch merge `repo_category_mapping[repo] = repo_categories`
performed by `main` for every pair of the classifier result
(src/stars.py lines 324-325). -/
def mergeNew (M N : Mapping) : Mapping :=
  N.foldl (fun acc p => setKey acc p.1 p.2) M

/-- The whole classification loop of `main` (src/stars.py lines 317-327):
fold the batches through the classifier `oracle` and merge each result. -/
def processAll (oracle : List (String × Repo) → Mapping)
    (chs : List (List Repo)) (M : Mapping) : Mapping :=
  chs.foldl (fun acc ch => mergeNew acc (oracle (batchOf ch))) M

theorem foldl_setKey_fresh {α : Type u} :
    ∀ (l acc : List (String × α)), (keysOf l).Nodup →
    (∀ k ∈ keysOf l, k ∉ keysOf acc) →
    l.foldl (fun acc p => setKey acc p.1 p.2) acc = acc ++ l := by
  intro l
  induction l with
  | nil => intro acc _ _; simp
  | cons p ps ih =>
    intro acc hnd hfresh
    have hndc := List.nodup_cons.mp (by simpa only [keysOf, List.map_cons] using hnd)
    have hnd' : (keysOf ps).Nodup := hndc.2
    have hhd : p.1 ∉ keysOf ps := hndc.1
    have hp : p.1 ∉ keysOf acc := hfresh p.1 (by simp [keysOf])
    have hfresh' : ∀ k ∈ keysOf ps, k ∉ keysOf (acc ++ [p]) := by
      intro k hk hka
      simp only [keysOf, List.map_append, List.mem_append, List.map_cons,
        List.map_nil, List.mem_singleton] at hka
      rcases hka with hka | hka
      · exact hfresh k (by
          simp only [keysOf, List.map_cons]
          exact List.mem_cons_of_mem _ hk) hka
      · exact hhd (hka ▸ hk)
    have hsk : setKey acc p.1 p.2 = acc ++ [p] := by
      unfold setKey
      rw [if_neg (fun hk => hp (hasKey_iff_mem_keysOf.mp hk))]
    rw [List.foldl_cons, hsk, ih (acc ++ [p]) hnd' hfresh']
    simp

theorem batchOf_eq_of_nodup {ch : List Repo}
    (h : (ch.map Repo.FullName).Nodup) :
    batchOf ch = ch.map (fun r => (r.FullName, r)) := by
  unfold batchOf
  have hk : (keysOf (ch.map (fun r => (r.FullName, r)))).Nodup := by
    simpa [keysOf, List.map_map, Function.comp] using h
  have hf : ∀ k ∈ keysOf (ch.map (fun r => (r.FullName, r))),
      k ∉ keysOf ([] : List (String × Repo)) := by
    intro k _ hk0
    simp [keysOf] at hk0
  rw [foldl_setKey_fresh _ [] hk hf]
  simp

theorem mergeNew_nil (M : Mapping) : mergeNew M [] = M := rfl

theorem mergeNew_cons (M : Mapping) (p : String × List String) (N : Mapping) :
    mergeNew M (p :: N) = mergeNew (setKey M p.1 p.2) N := rfl

theorem alistLookup_mergeNew_of_not_mem {M N : Mapping} {k : String}
    (h : k ∉ keysOf N) : alistLookup (mergeNew M N) k = alistLookup M k := by
  induction N generalizing M with
  | nil => rfl
  | cons p ps ih =>
    simp only [keysOf, List.map_cons, List.mem_cons] at h
    push_neg at h
    rw [mergeNew_cons, ih h.2, alistLookup_setKey_ne h.1]

theorem alistLookup_mergeNew_of_mem {M N : Mapping} {k : String}
    (hnd : (keysOf N).Nodup) (h : k ∈ keysOf N) :
    alistLookup (mergeNew M N) k = alistLookup N k := by
  induction N generalizing M with
  | nil => simp [keysOf] at h
  | cons p ps ih =>
    simp only [keysOf, List.map_cons] at hnd
    by_cases hk : k = p.1
    · subst hk
      have hnp : p.1 ∉ keysOf ps := by
        simpa [keysOf] using (List.nodup_cons.mp hnd).1
      rw [mergeNew_cons, alistLookup_mergeNew_of_not_mem hnp,
        alistLookup_setKey_self, alistLookup, if_pos rfl]
    · have hps : k ∈ keysOf ps := by
        simp only [keysOf, List.map_cons, List.mem_cons] at h
        rcases h with h | h
        · exact absurd h hk
        · exact h
      rw [mergeNew_cons, ih (List.nodup_cons.mp hnd).2 hps, alistLookup,
        if_neg (fun hh => hk hh.symm)]

theorem chunks_ne_nil {α : Type u} (l : List α) (h : l ≠ []) :
    chunks l = l.take batchSize :: chunks (l.drop batchSize) := by
  cases l with
  | nil => exact absurd rfl h
  | cons x xs => rw [chunks]

theorem chunks_of_length_120 {α : Type u} (l : List α)
    (hlen : l.length = 120) :
    chunks l
      = [l.take batchSize, (l.drop batchSize).take batchSize,
         (l.drop batchSize).drop batchSize] := by
  have h1 : l ≠ [] := by
    intro h
    rw [h] at hlen
    simp at hlen
  have hd1 : (l.drop batchSize).length = 70 := by
    simp [List.length_drop, hlen, batchSize]
  have h2 : l.drop batchSize ≠ [] := by
    intro h
    rw [h] at hd1
    simp at hd1
  have hd2 : ((l.drop batchSize).drop batchSize).length = 20 := by
    simp only [List.length_drop, batchSize, hlen]
  have h3 : (l.drop batchSize).drop batchSize ≠ [] := by
    intro h
    rw [h] at hd2
    simp at hd2
  have hd3 : (((l.drop batchSize).drop batchSize).drop batchSize) = [] := by
    apply List.eq_nil_of_length_eq_zero
    simp only [List.length_drop, batchSize, hlen]
  have ht3 : ((l.drop batchSize).drop batchSize).take batchSize
      = (l.drop batchSize).drop batchSize :=
    List.take_of_length_le (by rw [hd2]; norm_num [batchSize])
  rw [chunks_ne_nil l h1, chunks_ne_nil _ h2, chunks_ne_nil _ h3, hd3, ht3]
  rw [chunks]

/-- Claim C2: for 120 uncategorized repositories and batch size 50 the
classification loop performs exactly 3 model calls, on batches of sizes
50, 50 and 20; and when the second call fails (the classifier returns an
empty mapping for that batch, as `organize_repos_with_claude` does on any
API error), the assignments merged from the first batch are still present,
unchanged, in the final (persisted) assignment mapping.  The hypotheses
record the scenario: distinct repository full names, and a classifier
whose per-batch output only covers repositories of that batch with
distinct keys (it is a dictionary in the source). -/
theorem classify_batches_and_failure_isolation
    (repos : List Repo) (oracle : List (String × Repo) → Mapping)
    (M0 : Mapping)
    (hlen : repos.length = 120)
    (hnodup : (repos.map Repo.FullName).Nodup)
    (hfail : oracle (batchOf ((chunks repos).getD 1 [])) = [])
    (hsub : ∀ ch ∈ chunks repos, ∀ k ∈ keysOf (oracle (batchOf ch)),
      k ∈ ch.map Repo.FullName)
    (hn1 : (keysOf (oracle (batchOf ((chunks repos).getD 0 [])))).Nodup) :
    ((chunks repos).map (fun ch => (batchOf ch).length) = [50, 50, 20]) ∧
    ∀ k ∈ keysOf (oracle (batchOf ((chunks repos).getD 0 []))),
      alistLookup (processAll oracle (chunks repos) M0) k
        = alistLookup (oracle (batchOf ((chunks repos).getD 0 []))) k := by
  have hch := chunks_of_length_120 repos hlen
  have hb0 : (chunks repos).getD 0 [] = repos.take batchSize := by
    rw [hch]; rfl
  have hb1 : (chunks repos).getD 1 []
      = (repos.drop batchSize).take batchSize := by
    rw [hch]; rfl
  have nd1 : ((repos.take batchSize).map Repo.FullName).Nodup := by
    rw [List.map_take]
    exact hnodup.sublist (List.take_sublist _ _)
  have nd2 : (((repos.drop batchSize).take batchSize).map Repo.FullName).Nodup := by
    rw [List.map_take, List.map_drop]
    exact (hnodup.sublist (List.drop_sublist _ _)).sublist (List.take_sublist _ _)
  have nd3 : (((repos.drop batchSize).drop batchSize).map Repo.FullName).Nodup := by
    rw [List.map_drop, List.map_drop]
    exact (hnodup.sublist (List.drop_sublist _ _)).sublist (List.drop_sublist _ _)
  have hlen1 : (repos.drop batchSize).length = 70 := by
    simp [List.length_drop, hlen, batchSize]
  constructor
  · rw [hch]
    simp only [List.map_cons, List.map_nil]
    rw [batchOf_eq_of_nodup nd1, batchOf_eq_of_nodup nd2, batchOf_eq_of_nodup nd3]
    simp only [List.length_map, List.length_take, List.length_drop, hlen]
    norm_num [batchSize]
  · intro k hk
    rw [hb0] at hk hn1 ⊢
    rw [hb1] at hfail
    rw [hch]
    simp only [processAll, List.foldl_cons, List.foldl_nil]
    rw [hfail, mergeNew_nil]
    have hk1 : k ∈ (repos.map Repo.FullName).take batchSize := by
      have hm := hsub (repos.take batchSize) (by rw [hch]; simp) k hk
      rwa [List.map_take] at hm
    have hk3 : k ∉ keysOf
        (oracle (batchOf ((repos.drop batchSize).drop batchSize))) := by
      intro hmem
      have h3 := hsub ((repos.drop batchSize).drop batchSize)
        (by rw [hch]; simp) k hmem
      rw [List.drop_drop, List.map_drop] at h3
      exact (List.disjoint_take_drop hnodup
        (Nat.le_add_right batchSize batchSize)) hk1 h3
    rw [alistLookup_mergeNew_of_not_mem hk3]
    exact alistLookup_mergeNew_of_mem hn1 hk

/-- A concrete 120-repository scenario used as witness input for C2. -/
def repoW (i : Nat) : Repo :=
  { Name := "", URL := "", Description := "", Owner := "",
    FullName := "r" ++ toString i, README := "" }

/-- 120 distinct repositories `r0`, ..., `r119`. -/
def reposW : List Repo := (List.range 120).map repoW

/-- A classifier model for the witness run: the batch whose first key is
`r0` is classified, every other call fails and yields the empty mapping. -/
def oracleW (b : List (String × Repo)) : Mapping :=
  if (keysOf b).head? = some "r0" then [("r0", ["X"])] else []

set_option maxRecDepth 100000 in
set_option maxHeartbeats 1000000 in
/-- Witness for C2: on the 120 concrete repositories the loop produces
batches of sizes 50, 50, 20, and with the second call failing the first
batch assignment `r0 : [X]` survives into the final mapping. -/
theorem classify_batches_and_failure_isolation_witness :
    ((chunks reposW).map (fun ch => (batchOf ch).length) = [50, 50, 20]) ∧
    alistLookup (processAll oracleW (chunks reposW) []) "r0" = some ["X"] := by
  have hch := chunks_of_length_120 reposW (by decide)
  have h := classify_batches_and_failure_isolation reposW oracleW []
    (by decide) (by decide)
    (by rw [hch]; decide)
    (by rw [hch]; decide)
    (by rw [hch]; decide)
  exact ⟨h.1, (h.2 "r0" (by rw [hch]; decide)).trans (by rw [hch]; decide)⟩

/-- Accumulation of one parsed row into `new_mappings`
(src/stars.py lines 127-129): start an empty list for a first-seen
repository, then append the row category. -/
def appendCat (m : Mapping) (r c : String) : Mapping :=
  if hasKey m r then m.map (fun p => if p.1 = r then (p.1, p.2 ++ [c]) else p)
  else m ++ [(r, [c])]

/-- One iteration of the response-parsing loop of
`organize_repos_with_claude` (src/stars.py lines 114-129): rows without
exactly two fields are skipped with a warning; a category that is neither
a catalog key nor the literal Other is coerced to Other; the row is then
accumulated. -/
def processRow (categories : Catalog) (m : Mapping) (row : List String) :
    Mapping :=
  match row with
  | [repo_full_name, category] =>
      let category2 :=
        if !(hasKey categories category) && category != "Other" then "Other"
        else category
      appendCat m repo_full_name category2
  | _ => m

/-- The response parser of `organize_repos_with_claude`
(src/stars.py lines 110-131): skip the CSV header row, fold the remaining
parsed rows into a fresh mapping.  The CSV text-to-rows step is the
`csv.reader` call; claims C3-C5 speak about parsed rows, which are the
input here. -/
def organizeParse (categories : Catalog) (rows : List (List String)) :
    Mapping :=
  (rows.drop 1).foldl (processRow categories) []

theorem keysOf_map_snd_change {α : Type u} (m : List (String × α))
    (f : String × α → α) :
    keysOf (m.map (fun p => (p.1, f p))) = keysOf m := by
  unfold keysOf
  rw [List.map_map]
  rfl

theorem mem_keysOf_appendCat {m : Mapping} {r c k : String} :
    k ∈ keysOf (appendCat m r c) ↔ (k ∈ keysOf m ∨ k = r) := by
  unfold appendCat
  by_cases h : hasKey m r
  · rw [if_pos h]
    have hkeys : keysOf (m.map fun p => if p.1 = r then (p.1, p.2 ++ [c]) else p)
        = keysOf m := by
      unfold keysOf
      rw [List.map_map]
      apply List.map_congr_left
      intro p _
      by_cases hpr : p.1 = r
      · simp [hpr]
      · simp [hpr]
    rw [hkeys]
    constructor
    · exact Or.inl
    · rintro (hk | rfl)
      · exact hk
      · exact hasKey_iff_mem_keysOf.mp h
  · rw [if_neg h]
    simp [keysOf]

theorem mem_keysOf_foldl_processRow (categories : Catalog) :
    ∀ (rows : List (List String)) (m : Mapping) (k : String),
    k ∈ keysOf (rows.foldl (processRow categories) m) ↔
      (k ∈ keysOf m ∨ ∃ c, [k, c] ∈ rows) := by
  intro rows
  induction rows with
  | nil => simp
  | cons row rest ih =>
    intro m k
    have hstep : k ∈ keysOf (processRow categories m row) ↔
        (k ∈ keysOf m ∨ ∃ c, [k, c] = row) := by
      cases row with
      | nil => simp [processRow]
      | cons a t =>
        cases t with
        | nil => simp [processRow]
        | cons b t2 =>
          cases t2 with
          | nil =>
            simp only [processRow, mem_keysOf_appendCat]
            simp
          | cons c2 t3 => simp [processRow]
    rw [List.foldl_cons, ih, hstep]
    simp only [List.mem_cons, exists_or]
    tauto

/-- Counterexample for claim C3 as stated: the code performs no membership
check of response keys against the submitted batch, so a model response
row naming a repository outside the batch still enters the output mapping.
Batch: the single repository `a/x`; response: a header row followed by the
row `b/y,Other`. -/
theorem classifier_output_key_outside_batch :
    ¬ (∀ k ∈ keysOf (organizeParse [("Tooling", "dev tools")]
        [["FullName", "Category"], ["b/y", "Other"]]),
        k ∈ keysOf (batchOf [Repo.mk "x" "" "" "a" "a/x" ""])) := by
  decide

/-- Claim C3 amended: the keys of the classifier output mapping are exactly
the first fields of the two-field response rows after the header (the code
checks nothing against the batch), and the merge in `main` replaces each
merged key's previous category list wholesale with the freshly returned
list. -/
theorem classifier_keys_from_rows_and_overwrite_merge
    (categories : Catalog) (rows : List (List String)) (M N : Mapping)
    (k : String) :
    (k ∈ keysOf (organizeParse categories rows) ↔
      ∃ c, [k, c] ∈ rows.drop 1) ∧
    ((keysOf N).Nodup → k ∈ keysOf N →
      alistLookup (mergeNew M N) k = alistLookup N k) := by
  constructor
  · unfold organizeParse
    rw [mem_keysOf_foldl_processRow]
    simp [keysOf]
  · intro h1 h2
    exact alistLookup_mergeNew_of_mem h1 h2

/-- Witness for the amended C3 on concrete data: merging `a : [T]` over a
prior `a : [Old]` yields the fresh list, and the parsed row `a,T` puts key
`a` in the classifier output. -/
theorem classifier_keys_from_rows_and_overwrite_merge_witness :
    alistLookup (mergeNew [("a", ["Old"])] [("a", ["T"])]) "a"
      = alistLookup [("a", ["T"])] "a" ∧
    "a" ∈ keysOf (organizeParse [("T", "d")] [["h1", "h2"], ["a", "T"]]) := by
  constructor
  · exact (classifier_keys_from_rows_and_overwrite_merge [("T", "d")]
      [["h1", "h2"], ["a", "T"]] [("a", ["Old"])] [("a", ["T"])] "a").2
      (by decide) (by decide)
  · exact (classifier_keys_from_rows_and_overwrite_merge [("T", "d")]
      [["h1", "h2"], ["a", "T"]] [] [] "a").1.mpr ⟨"T", by decide⟩

/-- Claim C4: a parsed two-field row whose category field is neither a
catalog key nor the literal Other is stored with category Other: the row
is accumulated exactly as if it had read Other. -/
theorem unknown_category_coerced_to_other
    (categories : Catalog) (m : Mapping) (r c : String)
    (h1 : hasKey categories c = false) (h2 : c ≠ "Other") :
    processRow categories m [r, c] = appendCat m r "Other" := by
  simp [processRow, h1, h2]

/-- Witness for C4: the unknown category `Bogus` is stored as Other. -/
theorem unknown_category_coerced_to_other_witness :
    processRow [("Tooling", "d")] [] ["r", "Bogus"]
      = appendCat [] "r" "Other" :=
  unknown_category_coerced_to_other _ _ _ _ (by decide) (by decide)

/-- Claim C5: a response row that does not parse into exactly two fields
contributes nothing to the classifier output mapping; `processRow` leaves
the accumulator unchanged on any such row, so rows of any other field
count never appear in the output. -/
theorem short_or_long_rows_are_dropped
    (categories : Catalog) (m : Mapping) (row : List String)
    (h : row.length ≠ 2) : processRow categories m row = m := by
  cases row with
  | nil => rfl
  | cons a t =>
    cases t with
    | nil => rfl
    | cons b t2 =>
      cases t2 with
      | nil => exact absurd rfl h
      | cons c2 t3 => rfl

/-- Witness for C5: a three-field row leaves the mapping untouched. -/
theorem short_or_long_rows_are_dropped_witness :
    processRow [("Tooling", "d")] [("x", ["T"])] ["a", "b", "c"]
      = [("x", ["T"])] :=
  short_or_long_rows_are_dropped _ _ _ (by decide)

/-- Characters kept by the substitution in `clean_filename`
(src/stars.py line 140): word characters (ASCII alphanumeric or
underscore), hyphen, dot and space; everything else is removed. -/
def keepChar (c : Char) : Bool :=
  c.isAlphanum || c = '_' || c = '-' || c = '.' || c = ' '

/-- Python `str.strip()`: remove leading and trailing whitespace. -/
def pyStrip (l : List Char) : List Char :=
  ((l.dropWhile Char.isWhitespace).reverse.dropWhile Char.isWhitespace).reverse

/-- `clean_filename` (src/stars.py lines 139-140): keep the `keepChar`
characters, strip surrounding whitespace, replace spaces by underscores,
lowercase. -/
def clean_filename (name : String) : String :=
  (((pyStrip (name.data.filter keepChar)).map
    (fun c => if c = ' ' then '_' else c)).map Char.toLower).asString

/-- The listing document filename of a category (src/stars.py line 164). -/
def fileNameOf (category : String) : String := clean_filename category ++ ".md"

/-- A remote file operation issued through the GitHub contents API. -/
inductive RemoteOp where
  | create (path content : String)
  | update (path content : String)
  | delete (path : String)
deriving DecidableEq

/-- Python `file.path.endswith('.md') and file.path != "README.md"`
(src/stars.py line 155), with `endswith` read at the character level. -/
def isMdFile (p : String) : Bool :=
  decide (List.IsSuffix ".md".data p.data) && p != "README.md"

/-- The markdown files at the remote repository root, excluding the README
(src/stars.py line 155). -/
def mdFiles (remote : List (String × String)) : List String :=
  (keysOf remote).filter isMdFile

/-- The member repositories of one category: the inversion loop of
`update_github_lists` (src/stars.py lines 148-152) seen from a single
catalog category; one occurrence per appearance of the category in the
repository's list, in mapping order. -/
def collectRepos (M : Mapping) (cat : String) : List String :=
  M.flatMap (fun q => (q.2.filter (fun c => c = cat)).map (fun _ => q.1))

/-- `category_repos` (src/stars.py lines 148-152): catalog categories in
catalog order, each with its member repositories; only catalog categories
collect members. -/
def categoryRepos (cats : Catalog) (M : Mapping) :
    List (String × List String) :=
  cats.map (fun p => (p.1, collectRepos M p.1))

/-- The markdown block rendered for one repository
(src/stars.py lines 181-184). -/
def repoEntry (r : Repo) : String :=
  "## [" ++ r.Name ++ "](" ++ r.URL ++ ")\n\n" ++ r.Description ++ "\n\n" ++
  "[![GitHub stars](https://img.shields.io/github/stars/" ++ r.FullName ++
  "?style=social)](https://github.com/" ++ r.FullName ++ ")\n\n" ++ "---\n\n"

/-- The full listing document of one category (src/stars.py lines 177-184). -/
def renderCategory (cat desc : String) (repoNames : List String)
    (starred : List (String × Repo)) : String :=
  "# " ++ cat ++ "\n\n" ++ desc ++ "\n\n" ++
  String.join (repoNames.map (fun n =>
    repoEntry ((alistLookup starred n).getD (Repo.mk "" "" "" "" "" ""))))

/-- The content the category loop computes for one `category_repos` pair,
including the `categories[category]` description lookup
(src/stars.py line 177). -/
def contentFor (cats : Catalog) (starred : List (String × Repo))
    (p : String × List String) : String :=
  renderCategory p.1 ((alistLookup cats p.1).getD "") p.2 starred

/-- The state of `update_github_lists` while it walks the categories:
remote contents, the `existing_files` working list, the trace of remote
operations, local writes, the `changes_made` flag, and a flag recording
that a `GithubException` aborted the function. -/
structure PubState where
  remote : List (String × String)
  existing : List String
  ops : List RemoteOp
  localFiles : List (String × String)
  changes : Bool
  failed : Bool
deriving DecidableEq

/-- One iteration of the category loop of `update_github_lists`
(src/stars.py lines 163-203).  An empty category deletes its existing
remote file (the `existing_files` entry is NOT removed, as in the source);
a non-empty category renders its content, writes it locally, then creates
the remote file, updates it when the remote copy differs, or skips the
write when it is byte-identical.  API errors (fetching or creating a
missing or duplicate file, a repository absent from the snapshot) set
`failed`, which short-circuits the remaining work as the broad `except`
does. -/
def catStep (cats : Catalog) (starred : List (String × Repo))
    (s : PubState) (p : String × List String) : PubState :=
  if s.failed then s else
  if p.2.isEmpty then
    if fileNameOf p.1 ∈ s.existing then
      match alistLookup s.remote (fileNameOf p.1) with
      | none => { s with failed := true }
      | some _ =>
          { s with remote := eraseKey s.remote (fileNameOf p.1),
                   ops := s.ops ++ [RemoteOp.delete (fileNameOf p.1)],
                   changes := true }
    else s
  else
    if p.2.all (fun r => hasKey starred r) then
      if fileNameOf p.1 ∈ s.existing then
        match alistLookup s.remote (fileNameOf p.1) with
        | none =>
            { s with failed := true,
                     localFiles := s.localFiles
                       ++ [(fileNameOf p.1, contentFor cats starred p)] }
        | some old =>
            if old = contentFor cats starred p then
              { s with existing := s.existing.erase (fileNameOf p.1),
                       localFiles := s.localFiles
                         ++ [(fileNameOf p.1, contentFor cats starred p)] }
            else
              { s with remote := setKey s.remote (fileNameOf p.1)
                         (contentFor cats starred p),
                       ops := s.ops ++ [RemoteOp.update (fileNameOf p.1)
                         (contentFor cats starred p)],
                       changes := true,
                       existing := s.existing.erase (fileNameOf p.1),
                       localFiles := s.localFiles
                         ++ [(fileNameOf p.1, contentFor cats starred p)] }
      else
        if hasKey s.remote (fileNameOf p.1) then
          { s with failed := true,
                   localFiles := s.localFiles
                     ++ [(fileNameOf p.1, contentFor cats starred p)] }
        else
          { s with remote := s.remote
                     ++ [(fileNameOf p.1, contentFor cats starred p)],
                   ops := s.ops ++ [RemoteOp.create (fileNameOf p.1)
                     (contentFor cats starred p)],
                   changes := true,
                   localFiles := s.localFiles
                     ++ [(fileNameOf p.1, contentFor cats starred p)] }
    else { s with failed := true }

/-- One iteration of the obsolete-file deletion loop
(src/stars.py lines 206-212). -/
def delStep (s : PubState) (fn : String) : PubState :=
  if s.failed then s else
  match alistLookup s.remote fn with
  | none => { s with failed := true }
  | some _ =>
      { s with remote := eraseKey s.remote fn,
               ops := s.ops ++ [RemoteOp.delete fn], changes := true }

/-- `update_github_lists` (src/stars.py lines 142-221): build
`category_repos`, collect the existing markdown files, walk the
categories, then delete the leftover `existing_files` entries. -/
def update_github_lists (cats : Catalog) (starred : List (String × Repo))
    (M : Mapping) (remote : List (String × String)) : PubState :=
  let s0 : PubState :=
    { remote := remote, existing := mdFiles remote, ops := [],
      localFiles := [], changes := false, failed := false }
  let s1 := (categoryRepos cats M).foldl (catStep cats starred) s0
  s1.existing.foldl delStep s1

/-- `get_most_common_category` (src/stars.py lines 273-278): count every
category occurrence across the mapping and take the maximum, which on ties
is the first-inserted key, exactly as Python `max` over the counts
dictionary behaves. -/
def get_most_common_category (M : Mapping) : String :=
  let cats := M.flatMap (fun p => p.2)
  match cats.eraseDups with
  | [] => "N/A"
  | k :: ks =>
      ks.foldl (fun best c => if cats.count c > cats.count best then c
        else best) k

/-- `get_recently_added` (src/stars.py lines 280-282): repositories sorted
by full name in reverse, the first `num` rendered as markdown links. -/
def get_recently_added (starred : List (String × Repo)) (num : Nat) :
    String :=
  let sorted := (starred.map (fun p => p.2)).mergeSort
    (fun a b => decide (b.FullName ≤ a.FullName))
  String.intercalate ", " ((sorted.take num).map
    (fun r => "[" ++ r.Name ++ "](" ++ r.URL ++ ")"))

/-- `total_categories` of the README (src/stars.py line 237): the number
of distinct category names across the assignment mapping. -/
def total_categories (M : Mapping) : Nat :=
  ((M.flatMap (fun p => p.2)).eraseDups).length

/-- The README index document (src/stars.py lines 239-251), with the
timestamp passed in as `now`. -/
def readmeContent (now : String) (starred : List (String × Repo))
    (M : Mapping) : String :=
  "# Starred Repositories\n\n" ++
  "- **Last Updated:** " ++ now ++ "\n" ++
  "- **Total Starred Repositories:** " ++ toString starred.length ++ "\n" ++
  "- **Total Categories:** " ++ toString (total_categories M) ++ "\n\n" ++
  "## Quick Stats\n\n" ++
  "- Most Common Category: " ++ get_most_common_category M ++ "\n" ++
  "- Recently Added: " ++ get_recently_added starred 5 ++ "\n\n" ++
  "For detailed lists of repositories by category, please check the " ++
  "individual category files in this repository.\n"

/-- `update_readme` (src/stars.py lines 230-266): render the index, write
it locally, then update the remote copy when it exists and create it
otherwise; no content comparison is made.  Returns the new remote state,
the remote operations, and the local write. -/
def update_readme (starred : List (String × Repo)) (M : Mapping)
    (now : String) (remote : List (String × String)) :
    (List (String × String)) × List RemoteOp × (String × String) :=
  let content := readmeContent now starred M
  match alistLookup remote "README.md" with
  | some _ => (setKey remote "README.md" content,
      [RemoteOp.update "README.md" content], ("README.md", content))
  | none => (remote ++ [("README.md", content)],
      [RemoteOp.create "README.md" content], ("README.md", content))

/-- Result of one publish step: final remote state, the category-document
operations, and the index-document operations. -/
structure PublishResult where
  remote : List (String × String)
  catOps : List RemoteOp
  readmeOps : List RemoteOp
deriving DecidableEq

/-- The publish step of `main` (src/stars.py lines 334-338):
`update_github_lists` followed by `update_readme`, with the remote state
threaded through. -/
def publishOnce (cats : Catalog) (starred : List (String × Repo))
    (M : Mapping) (now : String) (remote : List (String × String)) :
    PublishResult :=
  let s := update_github_lists cats starred M remote
  let r := update_readme starred M now s.remote
  { remote := r.1, catOps := s.ops, readmeOps := r.2.1 }

/-- Counterexample for claim C7 as stated: `clean_filename` keeps hyphens
and dots, which are not word characters, so the published filename for the
category `A-B` is `a-b.md`, not the `ab.md` that the stated rule
(lowercase, strip non-word characters, underscore the spaces) produces. -/
theorem filename_rule_counterexample :
    fileNameOf "A-B" = "a-b.md" ∧
    (((("A-B".data.map Char.toLower).filter
        (fun c => c.isAlphanum || c = '_' || c = ' ')).map
      (fun c => if c = ' ' then '_' else c)).asString ++ ".md") = "ab.md" ∧
    fileNameOf "A-B" ≠ "ab.md" := by
  decide

/-- The filename rule of C7 as amended: remove every character that is not
a word character (letter, digit, underscore), hyphen, dot or space; trim
surrounding spaces; replace the spaces by underscores; lowercase; append
the markdown extension. -/
def amendedFileName (name : String) : String :=
  ((((name.data.filter (fun c => c.isAlpha || c.isDigit || c = '_' ||
      c = '-' || c = '.' || c = ' ')).dropWhile
      (fun c => c = ' ')).reverse.dropWhile
      (fun c => c = ' ')).reverse.map
    (fun c => Char.toLower (if c = ' ' then '_' else c))).asString ++ ".md"

theorem dropWhile_congr_mem {α : Type u} {l : List α} {p q : α → Bool}
    (h : ∀ c ∈ l, p c = q c) : l.dropWhile p = l.dropWhile q := by
  induction l with
  | nil => rfl
  | cons c t ih =>
    rw [List.dropWhile_cons, List.dropWhile_cons, h c (List.mem_cons_self c t)]
    by_cases hq : q c = true
    · rw [if_pos hq, if_pos hq]
      exact ih (fun x hx => h x (List.mem_cons_of_mem _ hx))
    · rw [if_neg hq, if_neg hq]

theorem keepChar_whitespace_iff (c : Char) (h : keepChar c = true) :
    Char.isWhitespace c = decide (c = ' ') := by
  by_cases hc : c = ' '
  · subst hc; decide
  · rw [decide_eq_false hc]
    cases hw : c.isWhitespace
    · rfl
    · exfalso
      simp only [Char.isWhitespace, Bool.or_eq_true, decide_eq_true_eq] at hw
      rcases hw with ((h1 | h1) | h1) | h1
      · exact hc h1
      · subst h1; exact absurd h (by decide)
      · subst h1; exact absurd h (by decide)
      · subst h1; exact absurd h (by decide)

theorem pyStrip_eq_space_trim {l : List Char}
    (h : ∀ c ∈ l, keepChar c = true) :
    pyStrip l = ((l.dropWhile (fun c => c = ' ')).reverse.dropWhile
      (fun c => c = ' ')).reverse := by
  unfold pyStrip
  rw [dropWhile_congr_mem (fun c hc => keepChar_whitespace_iff c (h c hc))]
  congr 1
  apply dropWhile_congr_mem
  intro c hc
  apply keepChar_whitespace_iff
  apply h
  exact (List.dropWhile_sublist _).subset (List.mem_reverse.mp hc)

/-- Claim C7 amended: for every category name the published listing
filename is the category name with every character outside word
characters, hyphen, dot and space removed, then trimmed of surrounding
whitespace, spaces turned to underscores, lowercased, and suffixed with
the markdown extension. -/
theorem filename_rule_amended (name : String) :
    fileNameOf name = amendedFileName name := by
  unfold fileNameOf clean_filename amendedFileName
  rw [List.map_map]
  have hfilter : name.data.filter (fun c => c.isAlpha || c.isDigit ||
      c = '_' || c = '-' || c = '.' || c = ' ')
      = name.data.filter keepChar := by
    apply List.filter_congr
    intro c _
    simp [keepChar, Char.isAlphanum, Bool.or_assoc]
  rw [hfilter]
  rw [pyStrip_eq_space_trim (fun c hc => (List.mem_filter.mp hc).2)]
  rfl

/-- Concrete inputs of the end-to-end scenario of claim C8. -/
def repoA8 : Repo := Repo.mk "A" "https://a" "repo A" "u" "A" ""

/-- Second concrete repository of the C8 scenario, assigned no category. -/
def repoB8 : Repo := Repo.mk "B" "https://b" "repo B" "u" "B" ""

/-- Claim C8: with catalog Tooling, snapshot holding A and B, and the
assignment A to Tooling and B to nothing, the publisher creates exactly
one file, `tooling.md`, listing only A (no file exists for a zero-member
category), and the index reports 2 starred repositories, 1 category, and
Tooling as most common category. -/
theorem publish_scenario_tooling :
    (update_github_lists [("Tooling", "dev tools")]
        [("A", repoA8), ("B", repoB8)]
        [("A", ["Tooling"]), ("B", [])] []).ops
      = [RemoteOp.create "tooling.md"
          ("# Tooling\n\ndev tools\n\n## [A](https://a)\n\nrepo A\n\n" ++
           "[![GitHub stars](https://img.shields.io/github/stars/" ++
           "A?style=social)](https://github.com/A)\n\n---\n\n")] ∧
    ([("A", repoA8), ("B", repoB8)] : List (String × Repo)).length = 2 ∧
    total_categories [("A", ["Tooling"]), ("B", [])] = 1 ∧
    get_most_common_category [("A", ["Tooling"]), ("B", [])] = "Tooling" := by
  decide

theorem mem_collectRepos {M : Mapping} {cat r : String} :
    r ∈ collectRepos M cat ↔ ∃ q ∈ M, q.1 = r ∧ cat ∈ q.2 := by
  unfold collectRepos
  rw [List.mem_flatMap]
  constructor
  · rintro ⟨q, hq, hr⟩
    rw [List.mem_map] at hr
    obtain ⟨x, hx, rfl⟩ := hr
    rw [List.mem_filter, decide_eq_true_eq] at hx
    exact ⟨q, hq, rfl, hx.2 ▸ hx.1⟩
  · rintro ⟨q, hq, rfl, hc⟩
    refine ⟨q, hq, ?_⟩
    rw [List.mem_map]
    exact ⟨cat, by rw [List.mem_filter, decide_eq_true_eq]; exact ⟨hc, rfl⟩, rfl⟩

theorem length_filter_split {α : Type u} (l : List α) (p : α → Bool) :
    l.length = (l.filter p).length + (l.filter (fun a => !(p a))).length := by
  induction l with
  | nil => rfl
  | cons a t ih =>
    rw [List.length_cons, ih, List.filter_cons, List.filter_cons]
    cases h : p a <;> simp [h] <;> omega

/-- Claim C10: the inversion loop keeps only catalog categories:
`category_repos` carries exactly the catalog keys, and a repository whose
assignment list holds no catalog name (in particular the reserved Other
when Other is not a catalog key) appears in no listing.  It still counts
in the index totals: the README repository total is the snapshot length,
which drops by exactly one when the repository is removed from the
snapshot. -/
theorem inversion_keeps_only_catalog_categories
    (cats : Catalog) (M : Mapping) (starred : List (String × Repo))
    (r : String)
    (hr : ∀ q ∈ M, q.1 = r → ∀ c ∈ q.2, c ∉ keysOf cats)
    (hs : (keysOf starred).Nodup) (hmem : r ∈ keysOf starred) :
    (keysOf (categoryRepos cats M) = keysOf cats) ∧
    (∀ p ∈ categoryRepos cats M, r ∉ p.2) ∧
    starred.length = (eraseKey starred r).length + 1 := by
  refine ⟨?_, ?_, ?_⟩
  · unfold categoryRepos keysOf
    rw [List.map_map]
    rfl
  · intro p hp hrp
    unfold categoryRepos at hp
    rw [List.mem_map] at hp
    obtain ⟨q0, hq0, rfl⟩ := hp
    rw [mem_collectRepos] at hrp
    obtain ⟨q, hq, hq1, hq2⟩ := hrp
    apply hr q hq hq1 q0.1 hq2
    unfold keysOf
    rw [List.mem_map]
    exact ⟨q0, hq0, rfl⟩
  · have hsplit := length_filter_split starred (fun q => decide (q.1 ≠ r))
    have hone : (starred.filter (fun q => !(decide (q.1 ≠ r)))).length = 1 := by
      have hcong : starred.filter (fun q => !(decide (q.1 ≠ r)))
          = starred.filter (fun q => q.1 == r) := by
        apply List.filter_congr
        intro q _
        rcases eq_or_ne q.1 r with h | h <;> simp [h]
      have hcnt : (keysOf starred).count r
          = starred.countP (fun q => q.1 == r) := by
        unfold keysOf
        rw [List.count, List.countP_map]
        rfl
      rw [hcong, ← List.countP_eq_length_filter, ← hcnt]
      exact List.count_eq_one_of_mem hs hmem
    rw [hone] at hsplit
    exact hsplit

/-- Witness for C10: repository B, assigned only Other with Other not in
the catalog, appears in no listing of the concrete scenario yet decreases
the repository total by one when dropped. -/
theorem inversion_keeps_only_catalog_categories_witness :
    (∀ p ∈ categoryRepos [("Tooling", "d")] [("B", ["Other"])], "B" ∉ p.2) ∧
    ([("B", repoB8)] : List (String × Repo)).length
      = (eraseKey [("B", repoB8)] "B").length + 1 := by
  have h := inversion_keeps_only_catalog_categories [("Tooling", "d")]
    [("B", ["Other"])] [("B", repoB8)] "B"
    (by decide) (by decide) (by decide)
  exact ⟨h.2.1, h.2.2⟩

/-- Result of one run of `main` after the snapshot download: the persisted
assignment mapping (when it is rewritten), the remote category and README
operations, and the local writes. -/
structure MainResult where
  savedMapping : Option Mapping
  catOps : List RemoteOp
  readmeOps : List RemoteOp
  localFiles : List (String × String)
deriving DecidableEq

/-- `main` after `download_starred_repos` (src/stars.py lines 296-341):
reconcile, collect the repositories without an assignment entry, classify
them in batches through `oracle`, and, only when something was removed or
something is new (`changes_made`, line 311), persist the mapping and run
the publish stage.  `now` stands for the README timestamp. -/
def mainRun (cats : Catalog) (starred : List (String × Repo)) (M0 : Mapping)
    (oracle : List (String × Repo) → Mapping)
    (remote : List (String × String)) (now : String) : MainResult :=
  if (starred.filter
        (fun p => !(hasKey (remove_unstarred_repos starred M0).2 p.1))).length
        > 0
      ∨ (remove_unstarred_repos starred M0).1.length > 0 then
    let M2 := processAll oracle
      (chunks ((starred.filter
        (fun p => !(hasKey (remove_unstarred_repos starred M0).2 p.1))).map
          (fun p => p.2)))
      (remove_unstarred_repos starred M0).2
    let s := update_github_lists cats starred M2 remote
    let r := update_readme starred M2 now s.remote
    { savedMapping := some M2, catOps := s.ops, readmeOps := r.2.1,
      localFiles := s.localFiles ++ [r.2.2] }
  else
    { savedMapping := none, catOps := [], readmeOps := [], localFiles := [] }

/-- Claim C9: when the reconciler removes no assignment and every snapshot
key already has an assignment entry, `main` skips the whole publish stage:
the assignment file is not rewritten and no listing document or index
document is written locally or remotely — whatever the catalog holds,
since the test at line 311 of src/stars.py never consults it. -/
theorem no_changes_skips_publish
    (cats : Catalog) (starred : List (String × Repo)) (M0 : Mapping)
    (oracle : List (String × Repo) → Mapping)
    (remote : List (String × String)) (now : String)
    (h1 : ∀ k ∈ keysOf M0, k ∈ keysOf starred)
    (h2 : ∀ k ∈ keysOf starred, k ∈ keysOf M0) :
    mainRun cats starred M0 oracle remote now
      = { savedMapping := none, catOps := [], readmeOps := [],
          localFiles := [] } := by
  have hrm : (remove_unstarred_repos starred M0).1 = [] := by
    unfold remove_unstarred_repos
    apply List.filter_eq_nil_iff.mpr
    intro k hk
    simp [hasKey_iff_mem_keysOf.mpr (h1 k hk)]
  have htp : starred.filter
      (fun p => !(hasKey (remove_unstarred_repos starred M0).2 p.1)) = [] := by
    apply List.filter_eq_nil_iff.mpr
    intro p hp
    have hpk : p.1 ∈ keysOf M0 := by
      apply h2
      unfold keysOf
      rw [List.mem_map]
      exact ⟨p, hp, rfl⟩
    have hkeep : hasKey (remove_unstarred_repos starred M0).2 p.1 = true := by
      rw [hasKey_iff_mem_keysOf]
      unfold keysOf remove_unstarred_repos
      unfold keysOf at hpk
      rw [List.mem_map] at hpk
      obtain ⟨q, hq, hq1⟩ := hpk
      rw [List.mem_map]
      refine ⟨q, List.mem_filter.mpr ⟨hq, ?_⟩, hq1⟩
      rw [hq1, hasKey_iff_mem_keysOf]
      unfold keysOf
      rw [List.mem_map]
      exact ⟨p, hp, rfl⟩
    simp [hkeep]
  unfold mainRun
  rw [hrm, htp]
  simp

/-- Witness for C9: a snapshot and mapping with identical keys cause a
skipped run even though the catalog is nonempty. -/
theorem no_changes_skips_publish_witness :
    mainRun [("Changed", "x")] [("A", repoA8)] [("A", ["Tooling"])]
      (fun _ => []) [] "t"
      = { savedMapping := none, catOps := [], readmeOps := [],
          localFiles := [] } :=
  no_changes_skips_publish _ _ _ _ _ _ (by decide) (by decide)

set_option maxRecDepth 100000 in
/-- Counterexample for claim C6 as stated: when a catalog category with an
empty member list still has a remote file, the first publish run deletes
that file, then aborts in the obsolete-file loop trying to fetch it again
(the source never removes it from `existing_files`), leaving the stale
file `old.md` on the remote; the second run, on identical inputs, then
deletes `old.md` — a remote category-document operation on the second
run. -/
theorem publish_twice_not_idempotent :
    (publishOnce [("gone", "d")] [] [] "t2"
      (publishOnce [("gone", "d")] [] [] "t1"
        [("gone.md", "x"), ("old.md", "y")]).remote).catOps
      = [RemoteOp.delete "old.md"] := by
  decide

/-- The optional published filename of a `category_repos` pair: present
exactly for the categories with members. -/
def doneFile (p : String × List String) : Option String :=
  if p.2.isEmpty then none else some (fileNameOf p.1)

/-- The filenames produced by a processed prefix of the category loop. -/
def doneFiles (l : List (String × List String)) : List String :=
  l.filterMap doneFile

/-- The optional published entry (filename and content) of a pair. -/
def expectedEntry (cats : Catalog) (starred : List (String × Repo))
    (p : String × List String) : Option (String × String) :=
  if p.2.isEmpty then none
  else some (fileNameOf p.1, contentFor cats starred p)

/-- The files the publisher leaves on the remote: one per non-empty
category, with the currently rendered content. -/
def expectedFiles (cats : Catalog) (starred : List (String × Repo))
    (M : Mapping) : List (String × String) :=
  (categoryRepos cats M).filterMap (expectedEntry cats starred)

/-- A remote state that is fully published for the given inputs: distinct
paths, every expected listing file present with its exact content and
counted among the markdown files, and every markdown file other than the
README being an expected listing file. -/
def publishedState (cats : Catalog) (starred : List (String × Repo))
    (M : Mapping) (remote : List (String × String)) : Prop :=
  (keysOf remote).Nodup ∧
  (∀ q ∈ expectedFiles cats starred M, alistLookup remote q.1 = some q.2) ∧
  (∀ p ∈ mdFiles remote, p ∈ keysOf (expectedFiles cats starred M)) ∧
  (∀ q ∈ expectedFiles cats starred M, q.1 ∈ mdFiles remote)

section PublishLemmas

variable {α : Type u}

theorem keysOf_append (m l : List (String × α)) :
    keysOf (m ++ l) = keysOf m ++ keysOf l := by
  unfold keysOf
  rw [List.map_append]

theorem keysOf_eraseKey (m : List (String × α)) (k : String) :
    keysOf (eraseKey m k) = (keysOf m).filter (fun x => x ≠ k) := by
  induction m with
  | nil => rfl
  | cons p ps ih =>
    simp only [eraseKey, keysOf, List.filter_cons, List.map_cons] at ih ⊢
    cases h : (decide (p.1 ≠ k)) <;> simp [h] <;> simpa using ih

theorem alistLookup_eraseKey_self (m : List (String × α)) (k : String) :
    alistLookup (eraseKey m k) k = none := by
  apply alistLookup_eq_none_of_not_mem
  rw [keysOf_eraseKey, List.mem_filter]
  rintro ⟨-, hk⟩
  simp at hk

theorem alistLookup_eraseKey_ne {m : List (String × α)} {k k' : String}
    (h : k' ≠ k) : alistLookup (eraseKey m k) k' = alistLookup m k' := by
  induction m with
  | nil => rfl
  | cons p ps ih =>
    unfold eraseKey at ih ⊢
    rw [List.filter_cons]
    by_cases hp : p.1 = k
    · rw [if_neg (by simp [hp]), ih, alistLookup,
        if_neg (fun hh : p.1 = k' => h (hh ▸ hp))]
    · rw [if_pos (by simp [hp]), alistLookup, alistLookup]
      by_cases hq : p.1 = k'
      · rw [if_pos hq, if_pos hq]
      · rw [if_neg hq, if_neg hq, ih]

theorem keysOf_setKey_mem {m : List (String × α)} {k : String} {v : α}
    (h : hasKey m k = true) : keysOf (setKey m k v) = keysOf m := by
  unfold setKey
  rw [if_pos h]
  unfold keysOf
  rw [List.map_map]
  apply List.map_congr_left
  intro p _
  by_cases hp : p.1 = k <;> simp [hp]

theorem alistLookup_append_single_ne {m : List (String × α)} {k fn : String}
    {c : α} (h : k ≠ fn) :
    alistLookup (m ++ [(fn, c)]) k = alistLookup m k := by
  cases ho : alistLookup m k with
  | some w => rw [alistLookup_append_left ho]
  | none =>
    have hnm : k ∉ keysOf m := by
      intro hmem
      have hs := alistLookup_isSome_iff.mpr hmem
      rw [ho] at hs
      simp at hs
    rw [alistLookup_append_right hnm]
    simp [alistLookup, Ne.symm h]

end PublishLemmas

theorem doneFiles_subset_fileNames (l : List (String × List String)) :
    ∀ f ∈ doneFiles l, f ∈ l.map (fun q => fileNameOf q.1) := by
  intro f hf
  unfold doneFiles at hf
  rw [List.mem_filterMap] at hf
  obtain ⟨q, hq, hdf⟩ := hf
  unfold doneFile at hdf
  by_cases he : q.2.isEmpty
  · rw [if_pos he] at hdf; cases hdf
  · rw [if_neg he] at hdf
    rw [List.mem_map]
    exact ⟨q, hq, Option.some.inj hdf⟩

theorem mem_doneFiles_iff {l : List (String × List String)} {f : String} :
    f ∈ doneFiles l ↔ ∃ q ∈ l, q.2 ≠ [] ∧ fileNameOf q.1 = f := by
  unfold doneFiles
  rw [List.mem_filterMap]
  constructor
  · rintro ⟨q, hq, hdf⟩
    unfold doneFile at hdf
    by_cases he : q.2.isEmpty
    · rw [if_pos he] at hdf; cases hdf
    · rw [if_neg he] at hdf
      refine ⟨q, hq, ?_, Option.some.inj hdf⟩
      intro hnil
      exact he (by simp [hnil])
  · rintro ⟨q, hq, hne, hf⟩
    refine ⟨q, hq, ?_⟩
    unfold doneFile
    rw [if_neg (by simpa [List.isEmpty_iff] using hne), hf]

theorem doneFiles_append (l₁ l₂ : List (String × List String)) :
    doneFiles (l₁ ++ l₂) = doneFiles l₁ ++ doneFiles l₂ := by
  unfold doneFiles
  exact List.filterMap_append l₁ l₂ _

theorem doneFiles_single_empty {p : String × List String} (h : p.2 = []) :
    doneFiles [p] = [] := by
  unfold doneFiles doneFile
  simp [h]

theorem doneFiles_single_nonempty {p : String × List String} (h : p.2 ≠ []) :
    doneFiles [p] = [fileNameOf p.1] := by
  unfold doneFiles doneFile
  simp [List.isEmpty_iff, h]

theorem expectedSingle_empty (cats : Catalog) (starred : List (String × Repo))
    {p : String × List String} (h : p.2 = []) :
    List.filterMap (expectedEntry cats starred) [p] = [] := by
  unfold expectedEntry
  simp [h]

theorem expectedSingle_nonempty (cats : Catalog)
    (starred : List (String × Repo)) {p : String × List String}
    (h : p.2 ≠ []) :
    List.filterMap (expectedEntry cats starred) [p]
      = [(fileNameOf p.1, contentFor cats starred p)] := by
  unfold expectedEntry
  simp [List.isEmpty_iff, h]

theorem keys_expectedOf (cats : Catalog) (starred : List (String × Repo))
    (l : List (String × List String)) :
    keysOf (l.filterMap (expectedEntry cats starred)) = doneFiles l := by
  unfold keysOf doneFiles
  rw [List.map_filterMap]
  congr 1
  funext q
  unfold expectedEntry doneFile
  by_cases h : q.2.isEmpty <;> simp [h]

theorem expected_mem_fst {cats : Catalog} {starred : List (String × Repo)}
    {l : List (String × List String)} {q : String × String}
    (h : q ∈ l.filterMap (expectedEntry cats starred)) :
    q.1 ∈ doneFiles l := by
  rw [← keys_expectedOf cats starred l]
  unfold keysOf
  rw [List.mem_map]
  exact ⟨q, h, rfl⟩

theorem append_md_injective :
    Function.Injective (fun s : String => s ++ ".md") := by
  intro a b h
  apply String.ext
  have hd := congrArg String.data h
  rw [String.data_append, String.data_append] at hd
  exact List.append_cancel_right hd

theorem fileNameOf_ne_readme {c : String}
    (h : clean_filename c ≠ "README") : fileNameOf c ≠ "README.md" := by
  intro heq
  apply h
  have hmd : ("README" ++ ".md" : String) = "README.md" := by decide
  apply append_md_injective
  show clean_filename c ++ ".md" = "README" ++ ".md"
  rw [hmd]
  exact heq

theorem isMdFile_fileNameOf {c : String} (h : fileNameOf c ≠ "README.md") :
    isMdFile (fileNameOf c) = true := by
  unfold isMdFile
  rw [Bool.and_eq_true]
  constructor
  · rw [decide_eq_true_eq]
    unfold fileNameOf
    show List.IsSuffix ".md".data (clean_filename c ++ ".md").data
    rw [String.data_append]
    exact List.suffix_append _ _
  · simpa [bne_iff_ne] using h

theorem mdFiles_subset_keys {remote : List (String × String)} {p : String}
    (h : p ∈ mdFiles remote) : p ∈ keysOf remote :=
  (List.mem_filter.mp h).1

theorem isMdFile_of_mem_mdFiles {remote : List (String × String)}
    {p : String} (h : p ∈ mdFiles remote) : isMdFile p = true :=
  (List.mem_filter.mp h).2


/-- Specification of the obsolete-file deletion loop of
`update_github_lists`: on a failure-free state whose remote holds every
listed path, the loop completes, erases exactly the listed paths and keeps
every other binding; the `existing_files` list is not touched. -/
theorem delLoop_spec :
    ∀ (l : List String) (s : PubState),
    s.failed = false → l.Nodup → (∀ p ∈ l, p ∈ keysOf s.remote) →
    (keysOf s.remote).Nodup →
    ((l.foldl delStep s).failed = false ∧
     (keysOf (l.foldl delStep s).remote).Nodup ∧
     (∀ k, alistLookup (l.foldl delStep s).remote k
        = if k ∈ l then none else alistLookup s.remote k) ∧
     (l.foldl delStep s).existing = s.existing) := by
  intro l
  induction l with
  | nil =>
    intro s hf _ _ hnd
    refine ⟨hf, hnd, ?_, rfl⟩
    intro k
    simp
  | cons p l' ih =>
    intro s hf hnd hmem hkeys
    obtain ⟨v, hv⟩ : ∃ v, alistLookup s.remote p = some v := by
      have hsome := alistLookup_isSome_iff.mpr
        (hmem p (List.mem_cons_self p l'))
      cases ho : alistLookup s.remote p with
      | none => rw [ho] at hsome; simp at hsome
      | some w => exact ⟨w, rfl⟩
    have hstep : delStep s p
        = { s with remote := eraseKey s.remote p,
                   ops := s.ops ++ [RemoteOp.delete p], changes := true } := by
      unfold delStep
      rw [if_neg (by simp [hf]), hv]
    rw [List.foldl_cons, hstep]
    have hnodup' : l'.Nodup := (List.nodup_cons.mp hnd).2
    have hpl : p ∉ l' := (List.nodup_cons.mp hnd).1
    have hmem' : ∀ q ∈ l', q ∈ keysOf (eraseKey s.remote p) := by
      intro q hq
      rw [keysOf_eraseKey, List.mem_filter]
      refine ⟨hmem q (List.mem_cons_of_mem _ hq), ?_⟩
      simp only [ne_eq, decide_eq_true_eq]
      exact fun hqp => hpl (hqp ▸ hq)
    have hkeys' : (keysOf (eraseKey s.remote p)).Nodup := by
      rw [keysOf_eraseKey]
      exact hkeys.filter _
    have hrec := ih { s with remote := eraseKey s.remote p, ops := s.ops ++ [RemoteOp.delete p], changes := true } hf hnodup' hmem' hkeys'
    refine ⟨hrec.1, hrec.2.1, ?_, hrec.2.2.2⟩
    intro k
    rw [hrec.2.2.1 k]
    by_cases hkp : k = p
    · subst hkp
      rw [if_neg hpl, alistLookup_eraseKey_self,
        if_pos (List.mem_cons_self _ _)]
    · rw [alistLookup_eraseKey_ne hkp]
      by_cases hkl : k ∈ l'
      · rw [if_pos hkl, if_pos (List.mem_cons_of_mem _ hkl)]
      · rw [if_neg hkl, if_neg (by simp [List.mem_cons, hkp, hkl])]

/-- Invariant of the category loop of `update_github_lists`, indexed by
the processed prefix `done` of `category_repos` and the current state:
no failure so far, distinct remote paths, every processed non-empty
category present remotely with its rendered content, `existing_files`
equal to the initial markdown files minus the processed filenames, and
every path outside the processed filenames untouched. -/
structure LoopInv (cats : Catalog) (starred : List (String × Repo))
    (remote0 : List (String × String))
    (done : List (String × List String)) (s : PubState) : Prop where
  nofail : s.failed = false
  nodupKeys : (keysOf s.remote).Nodup
  expectedOk : ∀ q ∈ done.filterMap (expectedEntry cats starred),
    alistLookup s.remote q.1 = some q.2
  existingIff : ∀ x, x ∈ s.existing ↔
    (x ∈ mdFiles remote0 ∧ x ∉ doneFiles done)
  existingNodup : s.existing.Nodup
  untouched : ∀ x, x ∉ doneFiles done →
    alistLookup s.remote x = alistLookup remote0 x
  keysBound : ∀ x ∈ keysOf s.remote,
    x ∈ keysOf remote0 ∨ x ∈ doneFiles done

theorem catStep_inv (cats : Catalog) (starred : List (String × Repo))
    (remote0 : List (String × String))
    (done : List (String × List String)) (s : PubState)
    (p : String × List String)
    (inv : LoopInv cats starred remote0 done s)
    (hfn : fileNameOf p.1 ∉ done.map (fun q => fileNameOf q.1))
    (hall : ∀ r ∈ p.2, hasKey starred r = true)
    (hempty : p.2 = [] → fileNameOf p.1 ∉ keysOf remote0)
    (hreadme : fileNameOf p.1 ≠ "README.md") :
    LoopInv cats starred remote0 (done ++ [p]) (catStep cats starred s p) := by
  have hfn' : fileNameOf p.1 ∉ doneFiles done :=
    fun hmem => hfn (doneFiles_subset_fileNames done _ hmem)
  unfold catStep
  rw [if_neg (by simp [inv.nofail])]
  by_cases hpe : p.2.isEmpty
  · have hp2 : p.2 = [] := by simpa [List.isEmpty_iff] using hpe
    rw [if_pos hpe]
    have hnotex : fileNameOf p.1 ∉ s.existing := by
      rw [inv.existingIff]
      rintro ⟨hmd, -⟩
      exact hempty hp2 (mdFiles_subset_keys hmd)
    rw [if_neg hnotex]
    have hdf : doneFiles (done ++ [p]) = doneFiles done := by
      rw [doneFiles_append, doneFiles_single_empty hp2, List.append_nil]
    refine ⟨inv.nofail, inv.nodupKeys, ?_, ?_, inv.existingNodup, ?_, ?_⟩
    · intro q hq
      rw [List.filterMap_append, List.mem_append] at hq
      rcases hq with hq | hq
      · exact inv.expectedOk q hq
      · rw [expectedSingle_empty cats starred hp2] at hq
        cases hq
    · intro x
      rw [inv.existingIff x, hdf]
    · intro x hx
      rw [hdf] at hx
      exact inv.untouched x hx
    · intro x hx
      rw [hdf]
      exact inv.keysBound x hx
  · have hp2 : p.2 ≠ [] := fun hnil => hpe (by simp [hnil])
    have hdf : doneFiles (done ++ [p])
        = doneFiles done ++ [fileNameOf p.1] := by
      rw [doneFiles_append, doneFiles_single_nonempty hp2]
    have hexp : (done ++ [p]).filterMap (expectedEntry cats starred)
        = done.filterMap (expectedEntry cats starred)
          ++ [(fileNameOf p.1, contentFor cats starred p)] := by
      rw [List.filterMap_append, expectedSingle_nonempty cats starred hp2]
    have hnd : ∀ x, x ∉ doneFiles (done ++ [p]) ↔
        (x ∉ doneFiles done ∧ x ≠ fileNameOf p.1) := by
      intro x
      rw [hdf]
      simp [List.mem_append]
    rw [if_neg hpe, if_pos (by rw [List.all_eq_true]; exact hall)]
    by_cases hex : fileNameOf p.1 ∈ s.existing
    · rw [if_pos hex]
      have hmdd := (inv.existingIff _).mp hex
      have hun : alistLookup s.remote (fileNameOf p.1)
          = alistLookup remote0 (fileNameOf p.1) :=
        inv.untouched _ hmdd.2
      obtain ⟨old, hold⟩ :
          ∃ w, alistLookup s.remote (fileNameOf p.1) = some w := by
        have hsome := alistLookup_isSome_iff.mpr
          (mdFiles_subset_keys hmdd.1)
        rw [← hun] at hsome
        cases ho : alistLookup s.remote (fileNameOf p.1) with
        | none => rw [ho] at hsome; simp at hsome
        | some w => exact ⟨w, rfl⟩
      simp only [hold]
      by_cases heq : old = contentFor cats starred p
      · rw [if_pos heq]
        refine ⟨inv.nofail, inv.nodupKeys, ?_, ?_,
          inv.existingNodup.erase _, ?_, ?_⟩
        · intro q hq
          rw [hexp, List.mem_append] at hq
          rcases hq with hq | hq
          · exact inv.expectedOk q hq
          · rw [List.mem_singleton] at hq
            subst hq
            rw [hold, heq]
        · intro x
          rw [inv.existingNodup.mem_erase_iff, inv.existingIff x, hnd x]
          tauto
        · intro x hx
          rw [hnd x] at hx
          exact inv.untouched x hx.1
        · intro x hx
          rcases inv.keysBound x hx with h | h
          · exact Or.inl h
          · right
            rw [hdf]
            exact List.mem_append_left _ h
      · rw [if_neg heq]
        have hhk : hasKey s.remote (fileNameOf p.1) = true := by
          rw [hasKey_iff_mem_keysOf]
          exact mem_keysOf_of_lookup_eq_some hold
        refine ⟨inv.nofail, ?_, ?_, ?_, inv.existingNodup.erase _, ?_, ?_⟩
        · rw [keysOf_setKey_mem hhk]
          exact inv.nodupKeys
        · intro q hq
          rw [hexp, List.mem_append] at hq
          rcases hq with hq | hq
          · have hne : q.1 ≠ fileNameOf p.1 := by
              intro hq1
              exact hfn' (hq1 ▸ expected_mem_fst hq)
            rw [alistLookup_setKey_ne hne]
            exact inv.expectedOk q hq
          · rw [List.mem_singleton] at hq
            subst hq
            exact alistLookup_setKey_self
        · intro x
          rw [inv.existingNodup.mem_erase_iff, inv.existingIff x, hnd x]
          tauto
        · intro x hx
          rw [hnd x] at hx
          rw [alistLookup_setKey_ne hx.2]
          exact inv.untouched x hx.1
        · intro x hx
          rw [keysOf_setKey_mem hhk] at hx
          rcases inv.keysBound x hx with h | h
          · exact Or.inl h
          · right
            rw [hdf]
            exact List.mem_append_left _ h
    · rw [if_neg hex]
      have hnk : hasKey s.remote (fileNameOf p.1) = false := by
        cases hk : hasKey s.remote (fileNameOf p.1)
        · rfl
        · exfalso
          have hmemk := hasKey_iff_mem_keysOf.mp hk
          rcases inv.keysBound _ hmemk with h0 | hd
          · have hmd : fileNameOf p.1 ∈ mdFiles remote0 :=
              List.mem_filter.mpr ⟨h0, isMdFile_fileNameOf hreadme⟩
            exact hex ((inv.existingIff _).mpr ⟨hmd, hfn'⟩)
          · exact hfn' hd
      rw [if_neg (by simp [hnk])]
      have hnotmem : fileNameOf p.1 ∉ keysOf s.remote := by
        intro hm
        rw [hasKey_iff_mem_keysOf.mpr hm] at hnk
        cases hnk
      refine ⟨inv.nofail, ?_, ?_, ?_, inv.existingNodup, ?_, ?_⟩
      · rw [keysOf_append]
        rw [List.nodup_append]
        refine ⟨inv.nodupKeys, by simp [keysOf], ?_⟩
        intro x hx hx1
        have : x = fileNameOf p.1 := by simpa [keysOf] using hx1
        exact hnotmem (this ▸ hx)
      · intro q hq
        rw [hexp, List.mem_append] at hq
        rcases hq with hq | hq
        · exact alistLookup_append_left (inv.expectedOk q hq)
        · rw [List.mem_singleton] at hq
          subst hq
          rw [alistLookup_append_right hnotmem]
          simp [alistLookup]
      · intro x
        rw [inv.existingIff x, hnd x]
        constructor
        · rintro ⟨hm, hd⟩
          refine ⟨hm, hd, ?_⟩
          intro hx
          exact hex (hx ▸ ((inv.existingIff _).mpr ⟨hm, hd⟩))
        · rintro ⟨hm, hd, -⟩
          exact ⟨hm, hd⟩
      · intro x hx
        rw [hnd x] at hx
        rw [alistLookup_append_single_ne hx.2]
        exact inv.untouched x hx.1
      · intro x hx
        rw [keysOf_append] at hx
        rw [List.mem_append] at hx
        rcases hx with hx | hx
        · rcases inv.keysBound x hx with h | h
          · exact Or.inl h
          · right
            rw [hdf]
            exact List.mem_append_left _ h
        · right
          rw [hdf]
          apply List.mem_append_right
          simpa [keysOf] using hx

theorem mem_expectedOf_iff {cats : Catalog} {starred : List (String × Repo)}
    {l : List (String × List String)} {q : String × String} :
    q ∈ l.filterMap (expectedEntry cats starred) ↔
      ∃ pr ∈ l, pr.2 ≠ [] ∧
        q = (fileNameOf pr.1, contentFor cats starred pr) := by
  rw [List.mem_filterMap]
  constructor
  · rintro ⟨pr, hpr, he⟩
    unfold expectedEntry at he
    by_cases hp : pr.2.isEmpty
    · rw [if_pos hp] at he; cases he
    · rw [if_neg hp] at he
      exact ⟨pr, hpr, fun hnil => hp (by simp [hnil]),
        (Option.some.inj he).symm⟩
  · rintro ⟨pr, hpr, hne, rfl⟩
    refine ⟨pr, hpr, ?_⟩
    unfold expectedEntry
    rw [if_neg (by simpa [List.isEmpty_iff] using hne)]

theorem catLoop_establishes (cats : Catalog) (starred : List (String × Repo))
    (remote0 : List (String × String)) :
    ∀ (pairs done : List (String × List String)) (s : PubState),
    LoopInv cats starred remote0 done s →
    ((done ++ pairs).map (fun q => fileNameOf q.1)).Nodup →
    (∀ p ∈ pairs, ∀ r ∈ p.2, hasKey starred r = true) →
    (∀ p ∈ pairs, p.2 = [] → fileNameOf p.1 ∉ keysOf remote0) →
    (∀ p ∈ pairs, fileNameOf p.1 ≠ "README.md") →
    LoopInv cats starred remote0 (done ++ pairs)
      (pairs.foldl (catStep cats starred) s) := by
  intro pairs
  induction pairs with
  | nil =>
    intro done s inv _ _ _ _
    simpa using inv
  | cons p ps ih =>
    intro done s inv hnodup hall hempty hreadme
    rw [List.foldl_cons]
    have hfn : fileNameOf p.1 ∉ done.map (fun q => fileNameOf q.1) := by
      intro hmem
      rw [List.map_append, List.nodup_append] at hnodup
      refine hnodup.2.2 hmem ?_
      rw [List.map_cons]
      exact List.mem_cons_self _ _
    have hinv' := catStep_inv cats starred remote0 done s p inv hfn
      (hall p (List.mem_cons_self _ _)) (hempty p (List.mem_cons_self _ _))
      (hreadme p (List.mem_cons_self _ _))
    have hrec := ih (done ++ [p]) (catStep cats starred s p) hinv'
      (by simpa [List.append_assoc] using hnodup)
      (fun q hq => hall q (List.mem_cons_of_mem _ hq))
      (fun q hq => hempty q (List.mem_cons_of_mem _ hq))
      (fun q hq => hreadme q (List.mem_cons_of_mem _ hq))
    simpa [List.append_assoc] using hrec

theorem update_github_lists_establishes (cats : Catalog)
    (starred : List (String × Repo)) (M : Mapping)
    (remote : List (String × String))
    (h0 : (keysOf remote).Nodup)
    (h1 : ((categoryRepos cats M).map (fun q => fileNameOf q.1)).Nodup)
    (h2 : ∀ p ∈ categoryRepos cats M, ∀ r ∈ p.2, hasKey starred r = true)
    (h3 : ∀ p ∈ categoryRepos cats M, p.2 = [] →
      fileNameOf p.1 ∉ keysOf remote)
    (h4 : ∀ p ∈ categoryRepos cats M, fileNameOf p.1 ≠ "README.md") :
    (update_github_lists cats starred M remote).failed = false ∧
    publishedState cats starred M
      (update_github_lists cats starred M remote).remote := by
  simp only [update_github_lists]
  have hinv0 : LoopInv cats starred remote []
      { remote := remote, existing := mdFiles remote, ops := [],
        localFiles := [], changes := false, failed := false } := by
    refine ⟨rfl, h0, ?_, ?_, ?_, ?_, ?_⟩
    · intro q hq; cases hq
    · intro x; simp [doneFiles]
    · exact h0.filter _
    · intro x _; rfl
    · intro x hx; exact Or.inl hx
  have hloop : LoopInv cats starred remote (categoryRepos cats M)
      ((categoryRepos cats M).foldl (catStep cats starred)
        { remote := remote, existing := mdFiles remote, ops := [],
          localFiles := [], changes := false, failed := false }) := by
    have := catLoop_establishes cats starred remote (categoryRepos cats M)
      [] _ hinv0 (by simpa using h1) h2 h3 h4
    simpa using this
  have hmem1 : ∀ x ∈ ((categoryRepos cats M).foldl (catStep cats starred)
      { remote := remote, existing := mdFiles remote, ops := [],
        localFiles := [], changes := false, failed := false }).existing,
      x ∈ keysOf ((categoryRepos cats M).foldl (catStep cats starred)
        { remote := remote, existing := mdFiles remote, ops := [],
          localFiles := [], changes := false, failed := false }).remote := by
    intro x hx
    have hxe := (hloop.existingIff x).mp hx
    have hun := hloop.untouched x hxe.2
    have hsome := alistLookup_isSome_iff.mpr
      (mdFiles_subset_keys hxe.1)
    rw [← hun] at hsome
    exact alistLookup_isSome_iff.mp hsome
  have hdel := delLoop_spec _ _ hloop.nofail hloop.existingNodup hmem1
    hloop.nodupKeys
  have hexpKeys : keysOf (expectedFiles cats starred M)
      = doneFiles (categoryRepos cats M) :=
    keys_expectedOf cats starred (categoryRepos cats M)
  have hnotex : ∀ q ∈ expectedFiles cats starred M,
      q.1 ∉ ((categoryRepos cats M).foldl (catStep cats starred)
        { remote := remote, existing := mdFiles remote, ops := [],
          localFiles := [], changes := false, failed := false }).existing := by
    intro q hq hqx
    exact ((hloop.existingIff q.1).mp hqx).2 (expected_mem_fst hq)
  constructor
  · exact hdel.1
  · refine ⟨hdel.2.1, ?_, ?_, ?_⟩
    · intro q hq
      rw [hdel.2.2.1 q.1, if_neg (hnotex q hq)]
      exact hloop.expectedOk q hq
    · intro x hx
      have hxk := mdFiles_subset_keys hx
      have hsome := alistLookup_isSome_iff.mpr hxk
      rw [hdel.2.2.1 x] at hsome
      by_cases hxe : x ∈ ((categoryRepos cats M).foldl (catStep cats starred)
          { remote := remote, existing := mdFiles remote, ops := [],
            localFiles := [], changes := false, failed := false }).existing
      · rw [if_pos hxe] at hsome
        simp at hsome
      · rw [if_neg hxe] at hsome
        have hxk1 := alistLookup_isSome_iff.mp hsome
        rcases hloop.keysBound x hxk1 with h | h
        · have hxmd : x ∈ mdFiles remote :=
            List.mem_filter.mpr ⟨h, isMdFile_of_mem_mdFiles hx⟩
          by_cases hxd : x ∈ doneFiles (categoryRepos cats M)
          · rw [hexpKeys]
            exact hxd
          · exact absurd ((hloop.existingIff x).mpr ⟨hxmd, hxd⟩) hxe
        · rw [hexpKeys]
          exact h
    · intro q hq
      have hlq : alistLookup ((((categoryRepos cats M).foldl
          (catStep cats starred)
          { remote := remote, existing := mdFiles remote, ops := [],
            localFiles := [], changes := false,
            failed := false }).existing).foldl delStep
          ((categoryRepos cats M).foldl (catStep cats starred)
          { remote := remote, existing := mdFiles remote, ops := [],
            localFiles := [], changes := false,
            failed := false })).remote q.1 = some q.2 := by
        rw [hdel.2.2.1 q.1, if_neg (hnotex q hq)]
        exact hloop.expectedOk q hq
      have hqfn := mem_expectedOf_iff.mp hq
      obtain ⟨pr, hpr, hne, rfl⟩ := hqfn
      apply List.mem_filter.mpr
      refine ⟨mem_keysOf_of_lookup_eq_some hlq, ?_⟩
      exact isMdFile_fileNameOf (h4 pr hpr)

theorem update_readme_writes (starred : List (String × Repo)) (M : Mapping)
    (now : String) (remote : List (String × String)) :
    (update_readme starred M now remote).2.1 ≠ [] := by
  unfold update_readme
  cases alistLookup remote "README.md" <;> simp

theorem publishedState_readme (cats : Catalog)
    (starred : List (String × Repo)) (M : Mapping) (now : String)
    (remote : List (String × String))
    (hp : publishedState cats starred M remote) :
    publishedState cats starred M (update_readme starred M now remote).1 := by
  obtain ⟨hnd, hexp, hmd, hmd2⟩ := hp
  unfold update_readme
  cases ho : alistLookup remote "README.md" with
  | some w =>
    show publishedState cats starred M
      (setKey remote "README.md" (readmeContent now starred M))
    have hhk : hasKey remote "README.md" = true := by
      rw [hasKey_iff_mem_keysOf]
      exact mem_keysOf_of_lookup_eq_some ho
    have hmdeq : mdFiles (setKey remote "README.md"
        (readmeContent now starred M)) = mdFiles remote := by
      unfold mdFiles
      rw [keysOf_setKey_mem hhk]
    refine ⟨?_, ?_, ?_, ?_⟩
    · rw [keysOf_setKey_mem hhk]
      exact hnd
    · intro q hq
      have hqne : q.1 ≠ "README.md" := by
        have hmdq := isMdFile_of_mem_mdFiles (hmd2 q hq)
        unfold isMdFile at hmdq
        rw [Bool.and_eq_true] at hmdq
        simpa [bne_iff_ne] using hmdq.2
      rw [alistLookup_setKey_ne hqne]
      exact hexp q hq
    · intro x hx
      rw [hmdeq] at hx
      exact hmd x hx
    · intro q hq
      rw [hmdeq]
      exact hmd2 q hq
  | none =>
    show publishedState cats starred M
      (remote ++ [("README.md", readmeContent now starred M)])
    have hnm : "README.md" ∉ keysOf remote := by
      intro hm
      have hs := alistLookup_isSome_iff.mpr hm
      rw [ho] at hs
      simp at hs
    have hmdeq : mdFiles (remote
        ++ [("README.md", readmeContent now starred M)])
        = mdFiles remote := by
      unfold mdFiles
      rw [keysOf_append, List.filter_append]
      have hf : isMdFile "README.md" = false := by decide
      simp [keysOf, hf]
    refine ⟨?_, ?_, ?_, ?_⟩
    · rw [keysOf_append, List.nodup_append]
      refine ⟨hnd, by simp [keysOf], ?_⟩
      intro x hx hx1
      have hxr : x = "README.md" := by simpa [keysOf] using hx1
      exact hnm (hxr ▸ hx)
    · intro q hq
      exact alistLookup_append_left (hexp q hq)
    · intro x hx
      rw [hmdeq] at hx
      exact hmd x hx
    · intro q hq
      rw [hmdeq]
      exact hmd2 q hq

theorem catLoop_noop (cats : Catalog) (starred : List (String × Repo))
    (M : Mapping) (remote : List (String × String))
    (hp : publishedState cats starred M remote)
    (h1 : ((categoryRepos cats M).map (fun q => fileNameOf q.1)).Nodup)
    (h2 : ∀ p ∈ categoryRepos cats M, ∀ r ∈ p.2, hasKey starred r = true) :
    ∀ (suffix done : List (String × List String)) (s : PubState),
    done ++ suffix = categoryRepos cats M →
    s.failed = false → s.remote = remote → s.ops = [] →
    (∀ x, x ∈ s.existing ↔ (x ∈ mdFiles remote ∧ x ∉ doneFiles done)) →
    s.existing.Nodup →
    ((suffix.foldl (catStep cats starred) s).failed = false ∧
     (suffix.foldl (catStep cats starred) s).remote = remote ∧
     (suffix.foldl (catStep cats starred) s).ops = [] ∧
     (∀ x, x ∈ (suffix.foldl (catStep cats starred) s).existing ↔
        (x ∈ mdFiles remote ∧ x ∉ doneFiles (done ++ suffix))) ∧
     (suffix.foldl (catStep cats starred) s).existing.Nodup) := by
  intro suffix
  induction suffix with
  | nil =>
    intro done s heq hf hr hops hex hnd
    rw [List.foldl_nil]
    refine ⟨hf, hr, hops, ?_, hnd⟩
    intro x
    rw [hex x, List.append_nil]
  | cons p ps ih =>
    intro done s heq hf hr hops hex hnd
    rw [List.foldl_cons]
    have hpmem : p ∈ categoryRepos cats M := by
      rw [← heq]
      exact List.mem_append_right _ (List.mem_cons_self _ _)
    have hfn : fileNameOf p.1 ∉ done.map (fun q => fileNameOf q.1) := by
      intro hmem
      have h1' := h1
      rw [← heq, List.map_append, List.nodup_append] at h1'
      refine h1'.2.2 hmem ?_
      rw [List.map_cons]
      exact List.mem_cons_self _ _
    have hfn' : fileNameOf p.1 ∉ doneFiles done :=
      fun hmem => hfn (doneFiles_subset_fileNames done _ hmem)
    by_cases hpe : p.2.isEmpty
    · have hp2 : p.2 = [] := by simpa [List.isEmpty_iff] using hpe
      have hnmd : fileNameOf p.1 ∉ mdFiles remote := by
        intro hmd0
        have hk := hp.2.2.1 _ hmd0
        have hexpKeys : keysOf (expectedFiles cats starred M)
            = doneFiles (categoryRepos cats M) :=
          keys_expectedOf cats starred (categoryRepos cats M)
        rw [hexpKeys, mem_doneFiles_iff] at hk
        obtain ⟨q, hq, hqne, hqf⟩ := hk
        have hqp : q = p := List.inj_on_of_nodup_map h1 hq hpmem hqf
        exact hqne (by rw [hqp, hp2])
      have hstep : catStep cats starred s p = s := by
        unfold catStep
        rw [if_neg (by simp [hf]), if_pos hpe,
          if_neg (fun hmem => hnmd ((hex _).mp hmem).1)]
      rw [hstep]
      have hex' : ∀ x, x ∈ s.existing ↔
          (x ∈ mdFiles remote ∧ x ∉ doneFiles (done ++ [p])) := by
        intro x
        rw [hex x, doneFiles_append, doneFiles_single_empty hp2,
          List.append_nil]
      have hrec := ih (done ++ [p]) s
        (by rw [List.append_assoc, List.singleton_append]; exact heq)
        hf hr hops hex' hnd
      simpa [List.append_assoc] using hrec
    · have hp2 : p.2 ≠ [] := fun hnil => hpe (by simp [hnil])
      have hqmem : (fileNameOf p.1, contentFor cats starred p)
          ∈ expectedFiles cats starred M :=
        mem_expectedOf_iff.mpr ⟨p, hpmem, hp2, rfl⟩
      have hlk : alistLookup remote (fileNameOf p.1)
          = some (contentFor cats starred p) := hp.2.1 _ hqmem
      have hmd0 : fileNameOf p.1 ∈ mdFiles remote := hp.2.2.2 _ hqmem
      have hex0 : fileNameOf p.1 ∈ s.existing := (hex _).mpr ⟨hmd0, hfn'⟩
      have hstep : catStep cats starred s p
          = { s with existing := s.existing.erase (fileNameOf p.1), localFiles := s.localFiles ++ [(fileNameOf p.1, contentFor cats starred p)] } := by
        unfold catStep
        rw [if_neg (by simp [hf]), if_neg hpe,
          if_pos (by rw [List.all_eq_true]; exact h2 p hpmem),
          if_pos hex0, hr]
        simp [hlk]
      rw [hstep]
      have hex' : ∀ x,
          x ∈ s.existing.erase (fileNameOf p.1) ↔
          (x ∈ mdFiles remote ∧ x ∉ doneFiles (done ++ [p])) := by
        intro x
        rw [hnd.mem_erase_iff, hex x, doneFiles_append,
          doneFiles_single_nonempty hp2]
        simp only [List.mem_append, List.mem_singleton]
        tauto
      have hrec := ih (done ++ [p])
        { s with existing := s.existing.erase (fileNameOf p.1), localFiles := s.localFiles ++ [(fileNameOf p.1, contentFor cats starred p)] }
        (by rw [List.append_assoc, List.singleton_append]; exact heq)
        hf hr hops hex' (hnd.erase _)
      simpa [List.append_assoc] using hrec

theorem publish_noop (cats : Catalog) (starred : List (String × Repo))
    (M : Mapping) (remote : List (String × String))
    (hp : publishedState cats starred M remote)
    (h1 : ((categoryRepos cats M).map (fun q => fileNameOf q.1)).Nodup)
    (h2 : ∀ p ∈ categoryRepos cats M, ∀ r ∈ p.2, hasKey starred r = true) :
    (update_github_lists cats starred M remote).ops = [] ∧
    (update_github_lists cats starred M remote).remote = remote := by
  simp only [update_github_lists]
  have hrun := catLoop_noop cats starred M remote hp h1 h2
    (categoryRepos cats M) []
    { remote := remote, existing := mdFiles remote, ops := [], localFiles := [], changes := false, failed := false }
    (by simp) rfl rfl rfl
    (by intro x; simp [doneFiles]) (hp.1.filter _)
  have hempty : ((categoryRepos cats M).foldl (catStep cats starred)
      { remote := remote, existing := mdFiles remote, ops := [], localFiles := [], changes := false, failed := false }).existing
      = [] := by
    rw [List.eq_nil_iff_forall_not_mem]
    intro x hx
    have hxe := (hrun.2.2.2.1 x).mp hx
    have hxk := hp.2.2.1 x hxe.1
    have hexpKeys : keysOf (expectedFiles cats starred M)
        = doneFiles (categoryRepos cats M) :=
      keys_expectedOf cats starred (categoryRepos cats M)
    rw [hexpKeys] at hxk
    exact hxe.2 (by simpa using hxk)
  rw [hempty, List.foldl_nil]
  exact ⟨hrun.2.2.1, hrun.2.1⟩

/-- Claim C6 amended: for well-formed inputs — distinct remote paths,
pairwise-distinct cleaned category filenames none of which is README,
every assignment key present in the snapshot, and no empty-membered
catalog category still owning a remote listing file — running the publish
step (`update_github_lists` then `update_readme`) twice with identical
catalog, snapshot and assignment inputs produces zero remote
create/update/delete operations for category listing documents on the
second run (the byte-equality comparison suppresses every write), while
the index document is written remotely on every run without any
content-equality check. -/
theorem publish_twice_idempotent_for_listings
    (cats : Catalog) (starred : List (String × Repo)) (M : Mapping)
    (remote : List (String × String)) (now1 now2 : String)
    (h0 : (keysOf remote).Nodup)
    (h1 : (cats.map (fun p => clean_filename p.1)).Nodup)
    (h1b : ∀ p ∈ cats, clean_filename p.1 ≠ "README")
    (h2 : ∀ q ∈ M, hasKey starred q.1 = true)
    (h3 : ∀ p ∈ categoryRepos cats M, p.2 = [] →
      fileNameOf p.1 ∉ keysOf remote) :
    (publishOnce cats starred M now2
        (publishOnce cats starred M now1 remote).remote).catOps = [] ∧
    (publishOnce cats starred M now1 remote).readmeOps ≠ [] ∧
    (publishOnce cats starred M now2
        (publishOnce cats starred M now1 remote).remote).readmeOps ≠ [] := by
  have hmap : (categoryRepos cats M).map (fun q => fileNameOf q.1)
      = (cats.map (fun p => clean_filename p.1)).map
          (fun s => s ++ ".md") := by
    unfold categoryRepos
    rw [List.map_map, List.map_map]
    rfl
  have h1' : ((categoryRepos cats M).map (fun q => fileNameOf q.1)).Nodup := by
    rw [hmap]
    exact h1.map append_md_injective
  have h2' : ∀ p ∈ categoryRepos cats M, ∀ r ∈ p.2,
      hasKey starred r = true := by
    intro p hpm r hr
    unfold categoryRepos at hpm
    rw [List.mem_map] at hpm
    obtain ⟨c, hc, rfl⟩ := hpm
    rw [mem_collectRepos] at hr
    obtain ⟨q, hq, hq1, -⟩ := hr
    exact hq1 ▸ h2 q hq
  have h4' : ∀ p ∈ categoryRepos cats M, fileNameOf p.1 ≠ "README.md" := by
    intro p hpm
    unfold categoryRepos at hpm
    rw [List.mem_map] at hpm
    obtain ⟨c, hc, rfl⟩ := hpm
    exact fileNameOf_ne_readme (h1b c hc)
  have hrun1 := update_github_lists_establishes cats starred M remote
    h0 h1' h2' h3 h4'
  have hps1 : publishedState cats starred M
      (publishOnce cats starred M now1 remote).remote := by
    simp only [publishOnce]
    exact publishedState_readme cats starred M now1 _ hrun1.2
  have hnoop := publish_noop cats starred M
    (publishOnce cats starred M now1 remote).remote hps1 h1' h2'
  refine ⟨?_, ?_, ?_⟩
  · simp only [publishOnce]
    exact hnoop.1
  · simp only [publishOnce]
    exact update_readme_writes _ _ _ _
  · simp only [publishOnce]
    exact update_readme_writes _ _ _ _

/-- Witness for the amended C6 on a concrete well-formed instance:
publishing twice from an empty remote issues no category-document
operation on the second run, while the README is written on both runs. -/
theorem publish_twice_idempotent_for_listings_witness :
    (publishOnce [("Tooling", "dev tools")] [("A", repoA8)]
        [("A", ["Tooling"])] "t2"
        (publishOnce [("Tooling", "dev tools")] [("A", repoA8)]
          [("A", ["Tooling"])] "t1" []).remote).catOps = [] ∧
    (publishOnce [("Tooling", "dev tools")] [("A", repoA8)]
        [("A", ["Tooling"])] "t1" []).readmeOps ≠ [] ∧
    (publishOnce [("Tooling", "dev tools")] [("A", repoA8)]
        [("A", ["Tooling"])] "t2"
        (publishOnce [("Tooling", "dev tools")] [("A", repoA8)]
          [("A", ["Tooling"])] "t1" []).remote).readmeOps ≠ [] :=
  publish_twice_idempotent_for_listings _ _ _ _ _ _
    (by decide) (by decide) (by decide) (by decide) (by decide)
